import Mathlib

/-!
# Verification of the Rain Merkle-tree dividend core

Shallow embedding of `src/rain/merkletree.py` (class `OZMerkleTree`), the
proof verifier `verify_merkle_proof` from `src/tests/rain/test_merkletree.py`,
and `calculate_dividend_shares` from `src/rain/dividends.py`.

Modelling conventions:
* 32-byte hash values (`bytes32`) are modelled as `Nat`.  All values in the
  Python code have the same length (32 bytes), so Python's lexicographic
  comparison of `bytes` coincides with numeric comparison of the
  corresponding natural numbers, and the 32-byte all-zero value is `0`.
* The keccak-based packed hash `web3.solidityKeccak(['bytes32','bytes32'], _)`
  is an external primitive; it is modelled as an arbitrary parameter
  `H : Nat → Nat → Nat`.  Likewise the leaf hash
  `solidityKeccak(['address','uint256'], _)` is a parameter
  `Hleaf : Nat → Nat → Nat` (addresses are modelled as `Nat`).
* Python's `sorted` is ascending stable sort: modelled by
  `List.insertionSort (· ≤ ·)`.
* Python's `list.index`, which raises `ValueError` when absent, is modelled
  by an `Option`-returning first-occurrence index search; `get_proof`'s
  `ValueError("Leaf not found in the tree")` becomes the `none` result.
* The reputation oracle `rain_reputation_contract.reputationScores` is a
  read-only lookup, modelled as a function `repOf : Nat → Nat`.
-/

namespace Rain

/-- The sorted-pair combination step of `OZMerkleTree._add_level`:
`if node1 < node2: H(node1, node2) else: H(node2, node1)`. -/
def hashPair (H : Nat → Nat → Nat) (node1 node2 : Nat) : Nat :=
  if node1 < node2 then H node1 node2 else H node2 node1

/-- `_add_level`'s odd-length handling: `if len(nodes) % 2 == 1:
nodes.append(nodes[-1])`. -/
def dupIfOdd (l : List Nat) : List Nat :=
  if l.length % 2 = 1 then l ++ [l.getLastD 0] else l

/-- The pairing loop of `_add_level`: `for i in range(0, len(nodes), 2)`,
combining `nodes[i]` and `nodes[i+1]`.  (The input always has even length
because `dupIfOdd` was applied first.) -/
def pairUp (H : Nat → Nat → Nat) : List Nat → List Nat
  | node1 :: node2 :: rest => hashPair H node1 node2 :: pairUp H rest
  | _ => []

/-- `OZMerkleTree._add_level`: duplicate the last node when the level is odd,
then hash consecutive pairs in ascending value order. -/
def addLevel (H : Nat → Nat → Nat) (level : List Nat) : List Nat :=
  pairUp H (dupIfOdd level)

theorem pairUp_length (H : Nat → Nat → Nat) (l : List Nat) :
    (pairUp H l).length = l.length / 2 := by
  induction l using pairUp.induct H with
  | case1 a b rest ih => simpa [pairUp] using by omega
  | case2 l h => cases l with
    | nil => simp [pairUp]
    | cons a rest =>
        cases rest with
        | nil => simp [pairUp]
        | cons b r => exact absurd rfl (h a b r)

theorem dupIfOdd_length (l : List Nat) :
    (dupIfOdd l).length = if l.length % 2 = 1 then l.length + 1 else l.length := by
  unfold dupIfOdd
  split <;> simp

theorem addLevel_length (H : Nat → Nat → Nat) (l : List Nat) :
    (addLevel H l).length = (l.length + 1) / 2 := by
  unfold addLevel
  rw [pairUp_length, dupIfOdd_length]
  split <;> omega

/-- The constructor loop of `OZMerkleTree.__init__`:
`self.levels = [self.leaves]; while len(self.levels[-1]) > 1: self._add_level()`.
Returns the list of levels from the (already sorted) leaves up to the root
level. -/
def buildLevels (H : Nat → Nat → Nat) (l : List Nat) : List (List Nat) :=
  if _h : l.length ≤ 1 then [l]
  else l :: buildLevels H (addLevel H l)
termination_by l.length
decreasing_by
  rw [addLevel_length]; omega

/-- `OZMerkleTree.__init__`'s `self.leaves = sorted(leaves)`. -/
def ozLeaves (leaves : List Nat) : List Nat :=
  leaves.insertionSort (· ≤ ·)

/-- `OZMerkleTree.levels` after construction from an arbitrary leaf list. -/
def ozLevels (H : Nat → Nat → Nat) (leaves : List Nat) : List (List Nat) :=
  buildLevels H (ozLeaves leaves)

/-- `OZMerkleTree.root`:
`self.levels[-1][0] if self.levels and self.levels[-1] else b'\x00' * 32`. -/
def rootOfLevels (levels : List (List Nat)) : Nat :=
  match levels.getLastD [] with
  | [] => 0
  | x :: _ => x

/-- The root of the tree built from `leaves`. -/
def ozRoot (H : Nat → Nat → Nat) (leaves : List Nat) : Nat :=
  rootOfLevels (ozLevels H leaves)

/-- Python `list.index`: index of the first occurrence, `none` when absent
(`ValueError` in the source). -/
def indexOf (l : List Nat) (x : Nat) : Option Nat :=
  match l with
  | [] => none
  | a :: rest => if a = x then some 0 else (indexOf rest x).map (· + 1)

/-- The sibling-index computation in `get_proof`:
`index + 1` for an even index, `index - 1` for an odd one. -/
def siblingIndex (i : Nat) : Nat :=
  if i % 2 = 0 then i + 1 else i - 1

/-- The proof-collection loop of `get_proof`: walk the levels from the bottom,
excluding the root level; at each level re-apply the odd-length duplication
(`nodes_for_hashing`), record the sibling, and halve the index. -/
def proofFromLevels (levels : List (List Nat)) (index : Nat) : List Nat :=
  match levels with
  | [] => []
  | [_] => []
  | level :: rest =>
      (dupIfOdd level).getD (siblingIndex index) 0 ::
        proofFromLevels rest (index / 2)

/-- `OZMerkleTree.get_proof`: locate the leaf in the sorted leaf list
(first occurrence; `none` models the `ValueError("Leaf not found in the
tree")`), then collect the sibling path. -/
def get_proof (H : Nat → Nat → Nat) (leaves : List Nat) (leaf : Nat) :
    Option (List Nat) :=
  match indexOf (ozLeaves leaves) leaf with
  | none => none
  | some index => some (proofFromLevels (ozLevels H leaves) index)

/-- `verify_merkle_proof` from `src/tests/rain/test_merkletree.py`: replay
`hash(min(current, sibling), max(current, sibling))` over the proof entries
starting from the leaf and compare with the claimed root. -/
def verify_merkle_proof (H : Nat → Nat → Nat) (root leaf : Nat)
    (proof : List Nat) : Bool :=
  proof.foldl (fun current sibling => hashPair H current sibling) leaf = root

/-! ## Dividend share calculation (`src/rain/dividends.py`) -/

/-- One entry of the `detailed_user_shares` list returned by
`calculate_dividend_shares`: `{"account": ..., "reputation": ..., "amount": ...}`. -/
structure DividendShare where
  account : Nat
  reputation : Nat
  amount : Nat
  deriving DecidableEq, Repr

/-- The reputation-fetch loop of `calculate_dividend_shares`: for each address
read `reputationScores(user_address)` from the oracle and keep the pair only
when the reputation is positive (`if rep > 0`). -/
def dividend_user_data (repOf : Nat → Nat) : List Nat → List (Nat × Nat)
  | [] => []
  | a :: rest =>
      if 0 < repOf a then (a, repOf a) :: dividend_user_data repOf rest
      else dividend_user_data repOf rest

/-- `total_reputation_score`: the running sum accumulated by the same loop. -/
def total_reputation_score (repOf : Nat → Nat) (user_addresses : List Nat) : Nat :=
  ((dividend_user_data repOf user_addresses).map Prod.snd).sum

/-- The per-account share computation:
`dividend = 0; if total_reputation_score > 0: dividend =
(reputation * total_dividend_amount) // total_reputation_score`. -/
def dividend_amount (reputation total_dividend_amount S : Nat) : Nat :=
  if 0 < S then reputation * total_dividend_amount / S else 0

/-- `leaves_data_for_tree`: the `(account, amount)` pairs hashed into the
tree's leaves. -/
def dividend_leaves_data (repOf : Nat → Nat) (user_addresses : List Nat)
    (total_dividend_amount : Nat) : List (Nat × Nat) :=
  (dividend_user_data repOf user_addresses).map fun p =>
    (p.1, dividend_amount p.2 total_dividend_amount
            (total_reputation_score repOf user_addresses))

/-- `calculate_dividend_shares` from `src/rain/dividends.py`: filter
zero-reputation accounts, short-circuit when the total reputation is zero,
otherwise compute floor shares, hash the `(account, amount)` leaves and build
the Merkle tree.  Returns `(detailed_user_shares, merkle_root,
total_reputation_score)`.

Modelled from the spec: the tree builder used here is the external
`merkle_tree.MerkleTree` library, which is not part of the repository; per
§4.1 of the spec the commitment tree builder is the sorted-pair,
duplicate-last-node builder, so the root (including the empty-tree root in the
zero-reputation branch, `MerkleTree([]).root`) is modelled with `ozRoot`.
The hex-string rendering of the root is dropped: the root is returned as the
modelled 32-byte value itself. -/
def calculate_dividend_shares (H Hleaf : Nat → Nat → Nat) (repOf : Nat → Nat)
    (user_addresses : List Nat) (total_dividend_amount : Nat) :
    List DividendShare × Nat × Nat :=
  let user_data := dividend_user_data repOf user_addresses
  let S := (user_data.map Prod.snd).sum
  if S = 0 then
    ([], ozRoot H [], 0)
  else
    let detailed_user_shares := user_data.map fun p =>
      { account := p.1, reputation := p.2,
        amount := dividend_amount p.2 total_dividend_amount S : DividendShare }
    let hashed_leaves :=
      (dividend_leaves_data repOf user_addresses total_dividend_amount).map
        fun d => Hleaf d.1 d.2
    (detailed_user_shares, ozRoot H hashed_leaves, S)

/-- A concrete stand-in for the abstract hash parameter, used to instantiate
the universally quantified theorems on concrete inputs.  On the small values
appearing in those instances it is injective, like a real hash. -/
def Hc : Nat → Nat → Nat := fun a b => 1000000 + a * 1000 + b

/-! ## Helper lemmas about the tree construction -/

theorem hashPair_comm (H : Nat → Nat → Nat) (a b : Nat) :
    hashPair H a b = hashPair H b a := by
  unfold hashPair
  rcases Nat.lt_trichotomy a b with h | h | h
  · rw [if_pos h, if_neg (Nat.lt_asymm h)]
  · subst h; rfl
  · rw [if_neg (Nat.lt_asymm h), if_pos h]

theorem buildLevels_of_le_one (H : Nat → Nat → Nat) (l : List Nat)
    (h : l.length ≤ 1) : buildLevels H l = [l] := by
  rw [buildLevels, dif_pos h]

theorem buildLevels_of_gt (H : Nat → Nat → Nat) (l : List Nat)
    (h : ¬ l.length ≤ 1) :
    buildLevels H l = l :: buildLevels H (addLevel H l) := by
  rw [buildLevels, dif_neg h]

theorem buildLevels_ne_nil (H : Nat → Nat → Nat) (l : List Nat) :
    buildLevels H l ≠ [] := by
  unfold buildLevels
  split <;> simp

theorem dupIfOdd_length_even (l : List Nat) :
    (dupIfOdd l).length % 2 = 0 := by
  rw [dupIfOdd_length]
  split <;> omega

theorem length_le_dupIfOdd_length (l : List Nat) :
    l.length ≤ (dupIfOdd l).length := by
  rw [dupIfOdd_length]
  split <;> omega

theorem dupIfOdd_getD (l : List Nat) (i : Nat) (hi : i < l.length) (d : Nat) :
    (dupIfOdd l).getD i d = l.getD i d := by
  unfold dupIfOdd
  split
  · rw [List.getD_eq_getElem?_getD, List.getD_eq_getElem?_getD,
      List.getElem?_append_left hi]
  · rfl

theorem siblingIndex_lt (l : List Nat) (i : Nat) (hi : i < l.length) :
    siblingIndex i < (dupIfOdd l).length := by
  unfold siblingIndex
  rw [dupIfOdd_length]
  split <;> split <;> omega

theorem pairUp_getD (H : Nat → Nat → Nat) (l : List Nat) (j : Nat)
    (h : 2 * j + 1 < l.length) :
    (pairUp H l).getD j 0 = hashPair H (l.getD (2 * j) 0) (l.getD (2 * j + 1) 0) := by
  induction l using pairUp.induct H generalizing j with
  | case1 a b rest ih =>
      cases j with
      | zero => simp [pairUp]
      | succ j =>
          have h' : 2 * j + 1 < rest.length := by
            simp only [List.length_cons] at h; omega
          have e2 : 2 * (j + 1) = 2 * j + 1 + 1 := by omega
          simp only [pairUp, List.getD_cons_succ, e2]
          exact ih j h'
  | case2 l hne =>
      cases l with
      | nil => simp at h
      | cons a rest =>
          cases rest with
          | nil => simp only [List.length_cons, List.length_nil] at h; omega
          | cons b r => exact absurd rfl (hne a b r)

/-- The key construction/replay agreement: the parent of position `i` in the
next level is the sorted-pair hash of the node at `i` and the sibling the
proof generator records for `i`. -/
theorem addLevel_getD (H : Nat → Nat → Nat) (l : List Nat) (i : Nat)
    (hi : i < l.length) :
    (addLevel H l).getD (i / 2) 0 =
      hashPair H (l.getD i 0) ((dupIfOdd l).getD (siblingIndex i) 0) := by
  have hdup := length_le_dupIfOdd_length l
  rcases Nat.mod_two_eq_zero_or_one i with hpar | hpar
  · have hsib : siblingIndex i = i + 1 := if_pos hpar
    have hlt : 2 * (i / 2) + 1 < (dupIfOdd l).length := by
      have hs := siblingIndex_lt l i hi
      rw [hsib] at hs
      omega
    unfold addLevel
    rw [pairUp_getD H _ _ hlt]
    have e1 : 2 * (i / 2) = i := by omega
    rw [e1, hsib, dupIfOdd_getD l i hi]
  · have hsib : siblingIndex i = i - 1 := by
      unfold siblingIndex
      rw [if_neg (by omega)]
    have hlt : 2 * (i / 2) + 1 < (dupIfOdd l).length := by omega
    unfold addLevel
    rw [pairUp_getD H _ _ hlt]
    have e1 : 2 * (i / 2) = i - 1 := by omega
    have e3 : i - 1 + 1 = i := by omega
    rw [e1, e3, hsib, dupIfOdd_getD l i hi, hashPair_comm]

theorem rootOfLevels_cons_cons (l r : List Nat) (rs : List (List Nat)) :
    rootOfLevels (l :: r :: rs) = rootOfLevels (r :: rs) := by
  unfold rootOfLevels
  rw [List.getLastD_cons, List.getLastD_cons, List.getLastD_cons]

/-- Replaying the sibling path produced by the proof generator, starting from
the node at position `i` of the (sorted) leaf level, reconstructs the root. -/
theorem foldl_proofFromLevels (H : Nat → Nat → Nat) (l : List Nat) :
    ∀ i, i < l.length →
      (proofFromLevels (buildLevels H l) i).foldl
          (fun current sibling => hashPair H current sibling) (l.getD i 0)
        = rootOfLevels (buildLevels H l) := by
  induction l using buildLevels.induct H with
  | case1 l hle =>
      intro i hi
      rw [buildLevels, dif_pos hle]
      cases l with
      | nil => exact absurd hi (by simp)
      | cons a rest =>
          cases rest with
          | nil =>
              have hi0 : i = 0 := by
                simp only [List.length_cons, List.length_nil] at hi
                omega
              subst hi0
              rfl
          | cons b r =>
              exfalso
              simp only [List.length_cons] at hle
              omega
  | case2 l hgt ih =>
      intro i hi
      rw [buildLevels, dif_neg hgt]
      obtain ⟨r, rs, hrest⟩ :=
        List.exists_cons_of_ne_nil (buildLevels_ne_nil H (addLevel H l))
      rw [hrest]
      show ((dupIfOdd l).getD (siblingIndex i) 0 ::
          proofFromLevels (r :: rs) (i / 2)).foldl
          (fun current sibling => hashPair H current sibling) (l.getD i 0)
        = rootOfLevels (l :: r :: rs)
      rw [List.foldl_cons, rootOfLevels_cons_cons, ← hrest,
        ← addLevel_getD H l i hi]
      have hi2 : i / 2 < (addLevel H l).length := by
        rw [addLevel_length]
        omega
      exact ih (i / 2) hi2

theorem indexOf_eq_none_iff (l : List Nat) (x : Nat) :
    indexOf l x = none ↔ x ∉ l := by
  induction l with
  | nil => simp [indexOf]
  | cons a rest ih =>
      unfold indexOf
      by_cases h : a = x
      · simp [h]
      · simp [h, Option.map_eq_none', ih, Ne.symm h]

theorem indexOf_some (l : List Nat) (x i : Nat)
    (h : indexOf l x = some i) : i < l.length ∧ l.getD i 0 = x := by
  induction l generalizing i with
  | nil => cases h
  | cons a rest ih =>
      unfold indexOf at h
      by_cases ha : a = x
      · rw [if_pos ha] at h
        cases h
        exact ⟨by simp, by simpa using ha⟩
      · rw [if_neg ha] at h
        cases hr : indexOf rest x with
        | none => rw [hr] at h; cases h
        | some j =>
            rw [hr] at h
            simp only [Option.map_some'] at h
            obtain ⟨h1, h2⟩ := ih j hr
            cases h
            exact ⟨by simp only [List.length_cons]; omega, by simpa using h2⟩

theorem get_proof_eq_none_iff (H : Nat → Nat → Nat) (leaves : List Nat)
    (leaf : Nat) :
    get_proof H leaves leaf = none ↔ indexOf (ozLeaves leaves) leaf = none := by
  unfold get_proof
  cases hidx : indexOf (ozLeaves leaves) leaf <;> simp [hidx]

/-- C1.  Round-trip verification: whenever `get_proof` returns a proof for a
leaf, replaying `hash(min(current, sibling), max(current, sibling))` over the
proof entries starting from that leaf reproduces the tree's root, i.e.
`verify(root(T), L, proof(T, L)) == true`. -/
theorem round_trip_verification (H : Nat → Nat → Nat) (leaves : List Nat)
    (leaf : Nat) (proof : List Nat)
    (hp : get_proof H leaves leaf = some proof) :
    verify_merkle_proof H (ozRoot H leaves) leaf proof = true := by
  unfold get_proof at hp
  cases hidx : indexOf (ozLeaves leaves) leaf with
  | none => rw [hidx] at hp; cases hp
  | some i =>
      rw [hidx] at hp
      obtain ⟨hi, hget⟩ := indexOf_some _ _ _ hidx
      injection hp with hp
      subst hp
      unfold verify_merkle_proof ozRoot ozLevels
      rw [← hget]
      exact decide_eq_true (foldl_proofFromLevels H (ozLeaves leaves) i hi)

/-- Witness for C1 at a concrete instance: the tree over leaves `[1, 2, 3]`
with the concrete hash `Hc`, leaf `2`. -/
theorem round_trip_verification_witness :
    verify_merkle_proof Hc (ozRoot Hc [1, 2, 3]) 2 [1, 1003003] = true :=
  round_trip_verification Hc [1, 2, 3] 2 [1, 1003003] (by
    norm_num [get_proof, ozLeaves, ozLevels, buildLevels_of_gt,
      buildLevels_of_le_one, addLevel, dupIfOdd, pairUp, proofFromLevels,
      indexOf, siblingIndex, Hc, hashPair, List.insertionSort,
      List.orderedInsert])

/-- C3.  Order independence: building the tree from any permutation of a leaf
list yields the same root. -/
theorem root_order_independence (H : Nat → Nat → Nat) (l1 l2 : List Nat)
    (h : l1.Perm l2) : ozRoot H l1 = ozRoot H l2 := by
  have hsorted : ozLeaves l1 = ozLeaves l2 :=
    List.eq_of_perm_of_sorted
      (((List.perm_insertionSort _ l1).trans h).trans
        (List.perm_insertionSort _ l2).symm)
      (List.sorted_insertionSort _ l1) (List.sorted_insertionSort _ l2)
  unfold ozRoot ozLevels
  rw [hsorted]

/-- Witness for C3 at a concrete instance: `[1, 2, 3]` against its reversal. -/
theorem root_order_independence_witness :
    ozRoot Hc [1, 2, 3] = ozRoot Hc [3, 2, 1] :=
  root_order_independence Hc [1, 2, 3] [3, 2, 1] (by decide)

/-- C5.  Empty-tree convention: the root of the tree built from the empty
leaf list is the all-zero 32-byte value (modelled as `0`), and every
`get_proof` call on the empty tree fails with the not-found condition. -/
theorem empty_tree_convention (H : Nat → Nat → Nat) :
    ozRoot H [] = 0 ∧ ∀ leaf, get_proof H [] leaf = none := by
  refine ⟨?_, fun _ => rfl⟩
  rw [ozRoot, ozLevels, show ozLeaves [] = [] from rfl,
    buildLevels_of_le_one H [] (by simp)]
  rfl

/-- Witness for C5 at a concrete instance. -/
theorem empty_tree_convention_witness :
    ozRoot Hc [] = 0 ∧ get_proof Hc [] 5 = none :=
  ⟨(empty_tree_convention Hc).1, (empty_tree_convention Hc).2 5⟩

/-- C7.  Not-found error: `get_proof` fails with the not-found condition
(`ValueError("Leaf not found in the tree")`, modelled as `none`) exactly when
the requested value is absent from the leaf list; when the value is present a
proof is returned. -/
theorem leaf_not_found_iff (H : Nat → Nat → Nat) (leaves : List Nat)
    (leaf : Nat) :
    (get_proof H leaves leaf = none ↔ leaf ∉ leaves) ∧
    (leaf ∈ leaves → ∃ proof, get_proof H leaves leaf = some proof) := by
  have hmem : leaf ∈ ozLeaves leaves ↔ leaf ∈ leaves :=
    List.mem_insertionSort _
  have hnone : get_proof H leaves leaf = none ↔ leaf ∉ leaves := by
    rw [get_proof_eq_none_iff, indexOf_eq_none_iff, hmem]
  refine ⟨hnone, fun hin => ?_⟩
  cases hsome : get_proof H leaves leaf with
  | none => exact absurd (hnone.mp hsome) (not_not_intro hin)
  | some proof => exact ⟨proof, rfl⟩

/-- Witness for C7 at concrete instances: absent leaf `9` fails as not-found,
present leaf `1` yields a proof. -/
theorem leaf_not_found_iff_witness :
    get_proof Hc [1, 2] 9 = none ∧
    ∃ proof, get_proof Hc [1, 2] 1 = some proof :=
  ⟨(leaf_not_found_iff Hc [1, 2] 9).1.mpr (by decide),
   (leaf_not_found_iff Hc [1, 2] 1).2 (by decide)⟩

theorem proofFromLevels_length (levels : List (List Nat)) (i : Nat) :
    (proofFromLevels levels i).length = levels.length - 1 := by
  induction levels generalizing i with
  | nil => rfl
  | cons level rest ih =>
      cases rest with
      | nil => rfl
      | cons r rs =>
          show ((dupIfOdd level).getD (siblingIndex i) 0 ::
              proofFromLevels (r :: rs) (i / 2)).length = _
          rw [List.length_cons, ih (i / 2)]
          simp only [List.length_cons]
          omega

/-- The number of levels built from `n` sorted leaves is `⌈log₂ n⌉ + 1`. -/
theorem buildLevels_length (H : Nat → Nat → Nat) (l : List Nat) :
    (buildLevels H l).length = Nat.clog 2 l.length + 1 := by
  induction l using buildLevels.induct H with
  | case1 l hle =>
      rw [buildLevels_of_le_one H l hle]
      have h01 : l.length = 0 ∨ l.length = 1 := by omega
      rcases h01 with h | h <;> simp [h]
  | case2 l hgt ih =>
      rw [buildLevels_of_gt H l hgt, List.length_cons, ih, addLevel_length]
      have h2 : 2 ≤ l.length := by omega
      rw [Nat.clog_of_two_le (by norm_num) h2]
      have e : l.length + 2 - 1 = l.length + 1 := by omega
      rw [e]

/-- C6.  Proof length: every proof returned by `get_proof` for a tree of `n`
leaves has length `⌈log₂ n⌉` when `n > 1`, and length `0` when `n = 1`. -/
theorem proof_length (H : Nat → Nat → Nat) (leaves : List Nat)
    (leaf : Nat) (proof : List Nat)
    (hp : get_proof H leaves leaf = some proof) :
    (1 < leaves.length → proof.length = Nat.clog 2 leaves.length) ∧
    (leaves.length = 1 → proof.length = 0) := by
  have hlen : proof.length = Nat.clog 2 leaves.length := by
    unfold get_proof at hp
    cases hidx : indexOf (ozLeaves leaves) leaf with
    | none => rw [hidx] at hp; cases hp
    | some i =>
        rw [hidx] at hp
        injection hp with hp
        subst hp
        rw [proofFromLevels_length]
        unfold ozLevels
        rw [buildLevels_length]
        unfold ozLeaves
        rw [List.length_insertionSort]
        omega
  exact ⟨fun _ => hlen, fun h1 => by rw [hlen, h1]; simp⟩

/-- Witness for C6 at a concrete instance: a five-leaf tree's proofs have
length `⌈log₂ 5⌉ = 3`; a one-leaf tree's proof is empty. -/
theorem proof_length_witness :
    (([3, 1001002, 1007010005] : List Nat).length = Nat.clog 2 5 ∧
      ([] : List Nat).length = 0) ∧
    get_proof Hc [1, 2, 3, 4, 5] 4 = some [3, 1001002, 1007010005] ∧
    get_proof Hc [9] 9 = some [] := by
  have h5 : get_proof Hc [1, 2, 3, 4, 5] 4 = some [3, 1001002, 1007010005] := by
    norm_num [get_proof, ozLeaves, ozLevels, buildLevels_of_gt,
      buildLevels_of_le_one, addLevel, dupIfOdd, pairUp, proofFromLevels,
      indexOf, siblingIndex, Hc, hashPair, List.insertionSort,
      List.orderedInsert]
  have h1 : get_proof Hc [9] 9 = some [] := by
    norm_num [get_proof, ozLeaves, ozLevels, buildLevels_of_le_one,
      proofFromLevels, indexOf, List.insertionSort, List.orderedInsert]
  refine ⟨⟨?_, (proof_length Hc [9] 9 [] h1).2 (by decide)⟩, h5, h1⟩
  have := (proof_length Hc [1, 2, 3, 4, 5] 4 [3, 1001002, 1007010005] h5).1
    (by decide)
  simpa using this

/-- C2.  Odd-level duplication, concrete three-leaf scenario: for leaves
`A < B < C`, the root is `hash(hash(A,B), hash(C,C))` with each pair hashed
in ascending order, and the proof for `C` is exactly `[C, hash(A,B)]` — the
first entry for the duplicated node is the node's own value. -/
theorem odd_level_duplication (H : Nat → Nat → Nat) (A B C : Nat)
    (hAB : A < B) (hBC : B < C) :
    ozRoot H [A, B, C] = hashPair H (hashPair H A B) (hashPair H C C) ∧
    get_proof H [A, B, C] C = some [C, hashPair H A B] := by
  have hAC : A < C := hAB.trans hBC
  have hsort : ozLeaves [A, B, C] = [A, B, C] := by
    unfold ozLeaves
    simp [List.insertionSort, List.orderedInsert, hAB.le, hBC.le, hAC.le]
  have hlev : buildLevels H [A, B, C] =
      [[A, B, C], [hashPair H A B, hashPair H C C],
       [hashPair H (hashPair H A B) (hashPair H C C)]] := by
    rw [buildLevels_of_gt H [A, B, C] (by simp)]
    have h1 : addLevel H [A, B, C] = [hashPair H A B, hashPair H C C] := by
      simp [addLevel, dupIfOdd, pairUp]
    rw [h1, buildLevels_of_gt H _ (by simp)]
    have h2 : addLevel H [hashPair H A B, hashPair H C C] =
        [hashPair H (hashPair H A B) (hashPair H C C)] := by
      simp [addLevel, dupIfOdd, pairUp]
    rw [h2, buildLevels_of_le_one H _ (by simp)]
  constructor
  · unfold ozRoot ozLevels
    rw [hsort, hlev]
    rfl
  · unfold get_proof
    have hidx : indexOf (ozLeaves [A, B, C]) C = some 2 := by
      rw [hsort]
      simp [indexOf, hAC.ne, hBC.ne]
    rw [hidx]
    unfold ozLevels
    rw [hsort, hlev]
    show some ((dupIfOdd [A, B, C]).getD (siblingIndex 2) 0 ::
        (dupIfOdd [hashPair H A B, hashPair H C C]).getD (siblingIndex 1) 0 ::
        proofFromLevels [[hashPair H (hashPair H A B) (hashPair H C C)]] 0)
      = some [C, hashPair H A B]
    norm_num [dupIfOdd, siblingIndex, proofFromLevels]

/-- Witness for C2 at a concrete instance: `A = 1 < B = 2 < C = 3` with the
concrete hash `Hc`. -/
theorem odd_level_duplication_witness :
    (1 : Nat) < 2 ∧ (2 : Nat) < 3 ∧
    (ozRoot Hc [1, 2, 3] = hashPair Hc (hashPair Hc 1 2) (hashPair Hc 3 3) ∧
      get_proof Hc [1, 2, 3] 3 = some [3, hashPair Hc 1 2]) :=
  ⟨by decide, by decide, odd_level_duplication Hc 1 2 3 (by decide) (by decide)⟩

/-! ## Lemmas about the dividend calculation -/

theorem dividend_user_data_mem (repOf : Nat → Nat) (addrs : List Nat)
    (p : Nat × Nat) (hp : p ∈ dividend_user_data repOf addrs) :
    p.2 = repOf p.1 ∧ 0 < repOf p.1 := by
  induction addrs with
  | nil => cases hp
  | cons a rest ih =>
      unfold dividend_user_data at hp
      by_cases h : 0 < repOf a
      · rw [if_pos h] at hp
        rcases List.mem_cons.mp hp with h1 | h1
        · subst h1; exact ⟨rfl, h⟩
        · exact ih h1
      · rw [if_neg h] at hp
        exact ih hp

theorem dividend_user_data_map_snd (repOf : Nat → Nat) (addrs : List Nat) :
    (dividend_user_data repOf addrs).map Prod.snd =
      (addrs.filter (fun x => 0 < repOf x)).map repOf := by
  induction addrs with
  | nil => rfl
  | cons a rest ih =>
      unfold dividend_user_data
      by_cases h : 0 < repOf a
      · simp [h, List.filter_cons, ih]
      · simp [h, List.filter_cons, ih]

theorem dividend_user_data_eq_nil (repOf : Nat → Nat) :
    ∀ addrs : List Nat, (∀ x ∈ addrs, repOf x = 0) →
      dividend_user_data repOf addrs = []
  | [], _ => rfl
  | a :: rest, h => by
      unfold dividend_user_data
      rw [if_neg (by rw [h a (List.mem_cons_self a rest)]; omega)]
      exact dividend_user_data_eq_nil repOf rest
        (fun x hx => h x (List.mem_cons_of_mem a hx))

theorem ozRoot_nil (H : Nat → Nat → Nat) : ozRoot H [] = 0 := by
  rw [ozRoot, ozLevels, show ozLeaves [] = [] from rfl,
    buildLevels_of_le_one H [] (by simp)]
  rfl

/-- The returned total is the reputation sum over the filtered accounts, in
both branches of `calculate_dividend_shares`. -/
theorem calculate_dividend_shares_total (H Hleaf : Nat → Nat → Nat)
    (repOf : Nat → Nat) (addrs : List Nat) (P : Nat) :
    (calculate_dividend_shares H Hleaf repOf addrs P).2.2 =
      total_reputation_score repOf addrs := by
  unfold calculate_dividend_shares total_reputation_score
  by_cases hS : ((dividend_user_data repOf addrs).map Prod.snd).sum = 0
  · simp [hS]
  · simp [hS]

theorem sum_div_le (ys : List Nat) (S : Nat) :
    (ys.map (· / S)).sum ≤ ys.sum / S := by
  induction ys with
  | nil => simp
  | cons y rest ih =>
      simp only [List.map_cons, List.sum_cons]
      calc y / S + (rest.map (· / S)).sum
          ≤ y / S + rest.sum / S := Nat.add_le_add_left ih _
        _ ≤ (y + rest.sum) / S := Nat.add_div_le_add_div y rest.sum S

/-- C4.  Share-sum invariant: each returned share's amount equals
`floor(reputation * P / total_reputation)` computed with exact integer
arithmetic, and the amounts sum to at most `P`. -/
theorem share_sum_invariant (H Hleaf : Nat → Nat → Nat) (repOf : Nat → Nat)
    (addrs : List Nat) (P : Nat) :
    (∀ s ∈ (calculate_dividend_shares H Hleaf repOf addrs P).1,
        s.amount = s.reputation * P /
          (calculate_dividend_shares H Hleaf repOf addrs P).2.2) ∧
    ((calculate_dividend_shares H Hleaf repOf addrs P).1.map
        DividendShare.amount).sum ≤ P := by
  unfold calculate_dividend_shares
  by_cases hS : ((dividend_user_data repOf addrs).map Prod.snd).sum = 0
  · simp [hS]
  · simp only [hS, if_neg, if_false]
    set ud := dividend_user_data repOf addrs with hud
    set S := (ud.map Prod.snd).sum with hSdef
    have hSpos : 0 < S := Nat.pos_of_ne_zero hS
    constructor
    · intro s hs
      simp only [List.mem_map] at hs
      obtain ⟨p, _, hp⟩ := hs
      subst hp
      simp [dividend_amount, hSpos]
    · have hmap :
          ((ud.map fun p =>
            ({ account := p.1, reputation := p.2,
               amount := dividend_amount p.2 P S } : DividendShare)).map
            DividendShare.amount).sum
          = ((ud.map fun p => p.2 * P).map (· / S)).sum := by
        simp only [List.map_map, Function.comp, dividend_amount, if_pos hSpos]
        rfl
      calc ((ud.map fun p =>
            ({ account := p.1, reputation := p.2,
               amount := dividend_amount p.2 P S } : DividendShare)).map
            DividendShare.amount).sum
          = ((ud.map fun p => p.2 * P).map (· / S)).sum := hmap
        _ ≤ (ud.map fun p => p.2 * P).sum / S := sum_div_le _ S
        _ = (ud.map Prod.snd).sum * P / S := by
            rw [List.sum_map_mul_right]
        _ = S * P / S := by rw [← hSdef]
        _ = P := Nat.mul_div_cancel_left P hSpos

/-- Witness for C4 at a concrete instance: reputations `1, 2, 3`, payout
`10`; the floored shares `1, 3, 5` sum to `9 ≤ 10`. -/
theorem share_sum_invariant_witness :
    ((calculate_dividend_shares Hc Hc (fun x => x) [1, 2, 3] 10).1.map
        DividendShare.amount).sum ≤ 10 :=
  (share_sum_invariant Hc Hc (fun x => x) [1, 2, 3] 10).2

/-- C8.  Zero-reputation exclusion: an account with reputation `0` never
appears in the returned share list or in the `(account, amount)` leaf data,
and the returned total reputation sums over only the accounts with positive
reputation. -/
theorem zero_reputation_exclusion (H Hleaf : Nat → Nat → Nat)
    (repOf : Nat → Nat) (addrs : List Nat) (P a : Nat) (ha : repOf a = 0) :
    (∀ s ∈ (calculate_dividend_shares H Hleaf repOf addrs P).1,
        s.account ≠ a) ∧
    (∀ d ∈ dividend_leaves_data repOf addrs P, d.1 ≠ a) ∧
    (calculate_dividend_shares H Hleaf repOf addrs P).2.2 =
      ((addrs.filter (fun x => 0 < repOf x)).map repOf).sum := by
  refine ⟨?_, ?_, ?_⟩
  · intro s hs hacc
    have hmem : ∃ p ∈ dividend_user_data repOf addrs, p.1 = s.account := by
      unfold calculate_dividend_shares at hs
      by_cases hS : ((dividend_user_data repOf addrs).map Prod.snd).sum = 0
      · simp [hS] at hs
      · simp only [hS, if_neg, if_false] at hs
        simp only [List.mem_map] at hs
        obtain ⟨p, hp, hps⟩ := hs
        exact ⟨p, hp, by rw [← hps]⟩
    obtain ⟨p, hp, hpa⟩ := hmem
    have := (dividend_user_data_mem repOf addrs p hp).2
    rw [hpa, hacc, ha] at this
    omega
  · intro d hd hacc
    unfold dividend_leaves_data at hd
    simp only [List.mem_map] at hd
    obtain ⟨p, hp, hpd⟩ := hd
    have := (dividend_user_data_mem repOf addrs p hp).2
    rw [show p.1 = d.1 from by rw [← hpd], hacc, ha] at this
    omega
  · rw [calculate_dividend_shares_total]
    unfold total_reputation_score
    rw [dividend_user_data_map_snd]

/-- Witness for C8 at a concrete instance: account `1` has reputation `0`
and is excluded; the total sums only over account `2`. -/
theorem zero_reputation_exclusion_witness :
    (calculate_dividend_shares Hc Hc (fun x => if x = 1 then 0 else 5)
        [1, 2] 10).2.2 =
      (([1, 2].filter fun x => 0 < (if x = 1 then 0 else 5 : Nat)).map
        (fun x => if x = 1 then 0 else 5)).sum :=
  (zero_reputation_exclusion Hc Hc (fun x => if x = 1 then 0 else 5)
    [1, 2] 10 1 (by decide)).2.2

/-- C9.  Zero-total-reputation terminal state: when every candidate account
has zero reputation, `calculate_dividend_shares` returns (normally, this
being a total function) the empty share list, the empty-tree root — the
all-zero value — and a zero total. -/
theorem zero_total_reputation (H Hleaf : Nat → Nat → Nat) (repOf : Nat → Nat)
    (addrs : List Nat) (P : Nat) (h : ∀ x ∈ addrs, repOf x = 0) :
    calculate_dividend_shares H Hleaf repOf addrs P = ([], ozRoot H [], 0) ∧
    ozRoot H [] = 0 := by
  refine ⟨?_, ozRoot_nil H⟩
  unfold calculate_dividend_shares
  rw [dividend_user_data_eq_nil repOf addrs h]
  rfl

/-- Witness for C9 at a concrete instance: two candidates, both with zero
reputation. -/
theorem zero_total_reputation_witness :
    calculate_dividend_shares Hc Hc (fun _ => 0) [3, 4] 10 =
      ([], ozRoot Hc [], 0) ∧ ozRoot Hc [] = 0 :=
  zero_total_reputation Hc Hc (fun _ => 0) [3, 4] 10 (fun _ _ => rfl)

/-- C10.  Zero-amount entries for positive-reputation accounts are possible:
with one candidate of reputation `1` and total payout `0`, the total
reputation is positive, yet the account appears in the share list and in the
leaf data with amount `0` — the filter removes only zero-reputation accounts,
never zero-amount shares. -/
theorem zero_amount_share_possible (H Hleaf : Nat → Nat → Nat) :
    (calculate_dividend_shares H Hleaf (fun _ => 1) [7] 0).2.2 = 1 ∧
    (calculate_dividend_shares H Hleaf (fun _ => 1) [7] 0).1 =
      [{ account := 7, reputation := 1, amount := 0 }] ∧
    dividend_leaves_data (fun _ => 1) [7] 0 = [(7, 0)] := by
  refine ⟨?_, ?_, ?_⟩ <;>
    simp [calculate_dividend_shares, dividend_user_data, dividend_leaves_data,
      dividend_amount, total_reputation_score]

end Rain
